import Mathlib

/-!
# Verification of the ascii-art-converter ASCII→image pipeline

A shallow embedding of the converter modules of the repository
(`src/converter/symbol_map.rs`, `src/converter/dimension.rs`,
`src/converter/ascii.rs`).  Rust `f32` arithmetic is modelled exactly:
every finite `f32` is a rational number, and each operation rounds its
exact rational result to the nearest representable value with ties to
even, the IEEE-754 default used by Rust.  Rationals are represented as
integer fractions with positive denominator, with purely structural
operations so that every definition evaluates inside the kernel.
Machine integers are `Nat` with explicit `% 2^32` where the `u32` width
matters.  Fallible operations return `Except`/`Option`, and a Rust
panic (out-of-bounds `put_pixel`) is a distinguished result.
-/

set_option maxRecDepth 10000

/-- An exact rational as an integer fraction.  Every constructed value
keeps `0 < den`; the operations below preserve that invariant. -/
structure Frac where
  num : ℤ
  den : ℤ
deriving DecidableEq

/-- The integer 1 as a fraction. -/
def Frac.one : Frac := ⟨1, 1⟩

/-- Exact product. -/
def Frac.mul (a b : Frac) : Frac := ⟨a.num * b.num, a.den * b.den⟩

/-- Exact difference. -/
def Frac.sub (a b : Frac) : Frac := ⟨a.num * b.den - b.num * a.den, a.den * b.den⟩

/-- Negation. -/
def Frac.neg (a : Frac) : Frac := ⟨-a.num, a.den⟩

/-- Exact quotient (the divisor must have a nonzero numerator); keeps the
denominator positive. -/
def Frac.div (a b : Frac) : Frac :=
  if b.num < 0 then ⟨-(a.num * b.den), a.den * -b.num⟩
  else ⟨a.num * b.den, a.den * b.num⟩

/-- Exact multiplication by `2^j` for an integer `j`. -/
def Frac.mulPow2 (a : Frac) (j : ℤ) : Frac :=
  match j with
  | .ofNat n => ⟨a.num * 2 ^ n, a.den⟩
  | .negSucc n => ⟨a.num, a.den * 2 ^ (n + 1)⟩

/-- The fraction `m * 2^k` for integers `m`, `k`. -/
def Frac.scalePow2 (m k : ℤ) : Frac :=
  match k with
  | .ofNat n => ⟨m * 2 ^ n, 1⟩
  | .negSucc n => ⟨m, 2 ^ (n + 1)⟩

/-- `a ≤ b` as a boolean (valid while both denominators are positive). -/
def Frac.ble (a b : Frac) : Bool := a.num * b.den ≤ b.num * a.den

/-- `⌊a⌋` (valid while the denominator is positive). -/
def Frac.floor (a : Frac) : ℤ := Int.fdiv a.num a.den

/-- Round to the nearest integer, ties to even (valid while the
denominator is positive). -/
def Frac.rne (a : Frac) : ℤ :=
  let f := a.floor
  let rem := a.num - f * a.den
  if 2 * rem < a.den then f
  else if a.den < 2 * rem then f + 1
  else if f % 2 = 0 then f else f + 1

/-- Fuel-based binary logarithm (structural recursion, so the kernel can
evaluate it): for `1 ≤ n < 2^fuel`, `log2F fuel n` is `⌊log₂ n⌋`. -/
def log2F : ℕ → ℕ → ℕ
  | 0, _ => 0
  | fuel + 1, n => if 2 ≤ n then log2F fuel (n / 2) + 1 else 0

/-- The binade exponent of a positive fraction: the `e` with
`2^e ≤ q < 2^(e+1)`.  For `q < 2^(-149)` (below the `f32` subnormal
grid) any value `≤ -150` works; we return `-150`. -/
def binadeExp (q : Frac) : ℤ :=
  if Frac.ble Frac.one q then (log2F 200 q.floor.toNat : ℤ)
  else
    match (List.range 150).find? (fun n => Frac.ble Frac.one (q.mulPow2 (n : ℤ))) with
    | some n => -(n : ℤ)
    | none => -150

/-- A Rust `f32` value: a finite value (every finite `f32` is a rational),
an infinity, or NaN.  The sign of zero is not tracked; it is irrelevant to
the integer casts the program performs. -/
inductive F32
  | finite (q : Frac)
  | inf
  | neginf
  | nan
deriving DecidableEq

/-- The IEEE round-to-nearest overflow threshold for `f32`: magnitudes at
or above `2^128 - 2^103` round to infinity. -/
def F32_OVERFLOW : Frac := ⟨2 ^ 128 - 2 ^ 103, 1⟩

/-- Round a positive fraction to `f32`. -/
def flPos (q : Frac) : F32 :=
  if Frac.ble F32_OVERFLOW q then .inf
  else
    let e : ℤ := binadeExp q
    let k : ℤ := max (e - 23) (-149)
    .finite (Frac.scalePow2 ((q.mulPow2 (-k)).rne) k)

/-- Round an exact fraction to the nearest `f32` (ties to even). -/
def fl (q : Frac) : F32 :=
  if q.num = 0 then .finite ⟨0, 1⟩
  else if 0 < q.num then flPos q
  else
    match flPos q.neg with
    | .finite r => .finite r.neg
    | .inf => .neginf
    | x => x

/-- Rust integer-to-`f32` cast (`n as f32`). -/
def natF32 (n : ℕ) : F32 := fl ⟨(n : ℤ), 1⟩

/-- `f32` multiplication: exact product, rounded. -/
def F32.mul : F32 → F32 → F32
  | .nan, _ => .nan
  | _, .nan => .nan
  | .finite a, .finite b => fl (a.mul b)
  | .finite a, .inf => if a.num = 0 then .nan else if 0 < a.num then .inf else .neginf
  | .finite a, .neginf => if a.num = 0 then .nan else if 0 < a.num then .neginf else .inf
  | .inf, .finite b => if b.num = 0 then .nan else if 0 < b.num then .inf else .neginf
  | .neginf, .finite b => if b.num = 0 then .nan else if 0 < b.num then .neginf else .inf
  | .inf, .inf => .inf
  | .inf, .neginf => .neginf
  | .neginf, .inf => .neginf
  | .neginf, .neginf => .inf

/-- `f32` division: exact quotient, rounded; `0/0` is NaN, `x/0` for `x ≠ 0`
is a (signed) infinity. -/
def F32.div : F32 → F32 → F32
  | .nan, _ => .nan
  | _, .nan => .nan
  | .finite a, .finite b =>
    if b.num = 0 then (if a.num = 0 then .nan else if 0 < a.num then .inf else .neginf)
    else fl (a.div b)
  | .finite _, .inf => .finite ⟨0, 1⟩
  | .finite _, .neginf => .finite ⟨0, 1⟩
  | .inf, .finite b => if 0 ≤ b.num then .inf else .neginf
  | .neginf, .finite b => if 0 ≤ b.num then .neginf else .inf
  | .inf, .inf => .nan
  | .inf, .neginf => .nan
  | .neginf, .inf => .nan
  | .neginf, .neginf => .nan

/-- Rust saturating float-to-unsigned-integer cast (`as u8` / `as u32` /
`as usize` with maximum value `cap`): truncate toward zero, clamp to
`[0, cap]`, NaN goes to 0. -/
def F32.toNatCast (cap : ℕ) : F32 → ℕ
  | .nan => 0
  | .inf => cap
  | .neginf => 0
  | .finite q => if q.num < 0 then 0 else min q.floor.toNat cap

/-- `u8::MAX`. -/
def U8_MAX : ℕ := 255
/-- `u32::MAX`. -/
def U32_MAX : ℕ := 2 ^ 32 - 1
/-- `usize::MAX` (64-bit target). -/
def USIZE_MAX : ℕ := 2 ^ 64 - 1

/-- The errors of `src/converter.rs` (`ConvertError`). -/
inductive ConvertError
  | ReadError
  | WriteError
  | DecodeError
  | UnknownASCIISymbol (c : Char)
deriving DecidableEq

instance {ε α : Type} [DecidableEq ε] [DecidableEq α] : DecidableEq (Except ε α) := fun x y =>
  match x, y with
  | .ok a, .ok b =>
    if h : a = b then .isTrue (congrArg Except.ok h)
    else .isFalse (fun hc => h (Except.ok.inj hc))
  | .error a, .error b =>
    if h : a = b then .isTrue (congrArg Except.error h)
    else .isFalse (fun hc => h (Except.error.inj hc))
  | .ok _, .error _ => .isFalse (fun hc => Except.noConfusion hc)
  | .error _, .ok _ => .isFalse (fun hc => Except.noConfusion hc)

/-- The 70-symbol alphabet `SYMBOLS` of `src/converter/symbol_map.rs`. -/
def SYMBOLS : List Char :=
  ['$', '@', 'B', '%', '8', '&', 'W', 'M', '#', '*', 'o', 'a', 'h', 'k', 'b',
   'd', 'p', 'q', 'w', 'm', 'Z', 'O', '0', 'Q', 'L', 'C', 'J', 'U', 'Y', 'X',
   'z', 'c', 'v', 'u', 'n', 'x', 'r', 'j', 'f', 't', '/', Char.ofNat 92, '|',
   '(', ')', '1', Char.ofNat 123, Char.ofNat 125, '[', ']', '?', '-', '_',
   '+', '~', '<', '>', 'i', '!', 'l', 'I', ';', ':', ',', Char.ofNat 34,
   '^', Char.ofNat 96, Char.ofNat 39, '.', ' ']

/-- `BRIGHT_DIV`: the Rust literal `3.65f32`, i.e. the `f32` nearest to 3.65. -/
def BRIGHT_DIV : F32 := fl ⟨365, 100⟩

/-- `symbol_for_brightness` of `symbol_map.rs`:
`SYMBOLS[(brightness as f32 / BRIGHT_DIV) as usize]`.  The array indexing
panics when out of bounds; that is modelled by `none`. -/
def symbol_for_brightness (brightness : ℕ) : Option Char :=
  let idx := F32.toNatCast USIZE_MAX (F32.div (natF32 brightness) BRIGHT_DIV)
  SYMBOLS.get? idx

/-- `brightness_for_symbol` of `symbol_map.rs`: position of the char in
`SYMBOLS`, times `BRIGHT_DIV` in `f32`, cast to `u8`; unknown chars give
`ConvertError::UnknownASCIISymbol`. -/
def brightness_for_symbol (symbol : Char) : Except ConvertError ℕ :=
  match SYMBOLS.findIdx? (fun c => c == symbol) with
  | some p => .ok (F32.toNatCast U8_MAX (F32.mul (natF32 p) BRIGHT_DIV))
  | none => .error (.UnknownASCIISymbol symbol)

/-- The symbol→byte→symbol composition named by the spec's
inverse-consistency statement. -/
def roundTrip (s : Char) : Option Char :=
  match brightness_for_symbol s with
  | .ok b => symbol_for_brightness b
  | .error _ => none

/-- The `Dimension` struct of `src/converter/dimension.rs` (`u32` fields). -/
structure Dimension where
  width : ℕ
  height : ℕ
deriving DecidableEq

/-- `Dimension::new`: the `(0,0)` dimension. -/
def Dimension.new : Dimension := ⟨0, 0⟩

/-- `Dimension::scale`: set the larger axis to `factor` and the other to
`factor` times the `f32` ratio of the axes, truncated to `u32`. -/
def Dimension.scale (d : Dimension) (factor : ℕ) : Dimension :=
  if d.height < d.width then
    let ratio := F32.div (natF32 d.height) (natF32 d.width)
    ⟨factor, F32.toNatCast U32_MAX (F32.mul (natF32 factor) ratio)⟩
  else
    let ratio := F32.div (natF32 d.width) (natF32 d.height)
    ⟨F32.toNatCast U32_MAX (F32.mul (natF32 factor) ratio), factor⟩

/-- `Dimension::scale_down`: a no-op when both axes are already `≤ max`. -/
def Dimension.scale_down (d : Dimension) (max : ℕ) : Dimension :=
  if d.width ≤ max ∧ d.height ≤ max then d else d.scale max

/-- `Dimension::scale_up`: a no-op when some axis is already `≥ min`. -/
def Dimension.scale_up (d : Dimension) (min : ℕ) : Dimension :=
  if min ≤ d.width ∨ min ≤ d.height then d else d.scale min

/-- The `u32` modulus. -/
def U32M : ℕ := 2 ^ 32

/-- Split a string at every newline character (the raw split underlying
Rust's `str::lines`); a trailing newline yields a final empty segment. -/
def splitNl : List Char → List (List Char)
  | [] => [[]]
  | c :: rest =>
    if c = '\n' then [] :: splitNl rest
    else
      match splitNl rest with
      | [] => [[c]]
      | l :: ls => (c :: l) :: ls

/-- Strip one trailing carriage return from a `'\n'`-terminated segment
(`str::lines` treats `\r\n` as a line terminator). -/
def stripCR (l : List Char) : List Char :=
  match l.getLast? with
  | some c => if c = '\r' then l.dropLast else l
  | none => l

/-- Finish `str::lines` on the raw newline split: every segment except
the last was `'\n'`-terminated and has one trailing `'\r'` stripped; the
final unterminated segment is kept verbatim — a bare trailing `'\r'`
stays in it — or dropped when empty (the final line ending is
optional). -/
def linesEnd : List (List Char) → List (List Char)
  | [] => []
  | [last] => if last = [] then [] else [last]
  | seg :: rest => stripCR seg :: linesEnd rest

/-- Rust `str::lines`. -/
def rlines (s : List Char) : List (List Char) :=
  linesEnd (splitNl s)

/-- The UTF-8 byte length of a line (Rust `str::len`). -/
def utf8len (l : List Char) : ℕ := (l.map Char.utf8Size).sum

/-- The loop body of `Ascii::get_dimensions`: bump `height`, keep the
running maximum byte length in `width`, in `u32` arithmetic. -/
def gdStep (dim : Dimension) (l : List Char) : Dimension :=
  let w := utf8len l % U32M
  ⟨if dim.width < w then w else dim.width, (dim.height + 1) % U32M⟩

/-- `Ascii::get_dimensions` of `src/converter/ascii.rs`: one `height`
increment per line, `width` the running maximum of the lines' byte
lengths, in `u32` arithmetic. -/
def get_dimensions (data : List Char) : Dimension :=
  (rlines data).foldl gdStep Dimension.new

/-- The `image` crate's 8-bit grayscale buffer, as dimensions plus a
brightness function; fresh buffers are all zero. -/
structure GrayImage where
  width : ℕ
  height : ℕ
  pix : ℕ → ℕ → ℕ

/-- `GrayImage::new`: an all-zero raster. -/
def GrayImage.new (w h : ℕ) : GrayImage := ⟨w, h, fun _ _ => 0⟩

/-- `ImageBuffer::put_pixel`, which panics out of bounds (modelled by
`none`). -/
def GrayImage.put_pixel (img : GrayImage) (x y b : ℕ) : Option GrayImage :=
  if x < img.width ∧ y < img.height then
    some ⟨img.width, img.height, fun x2 y2 => if x2 = x ∧ y2 = y then b else img.pix x2 y2⟩
  else none

/-- Outcome of running a Rust function that can return, fail with an
error, or panic. -/
inductive RunResult (ε α : Type)
  | ok (a : α)
  | err (e : ε)
  | panicked

/-- Is the run an ordinary return? -/
def RunResult.isOk {ε α : Type} : RunResult ε α → Bool
  | .ok _ => true
  | _ => false

/-- The error of a failed run, if any. -/
def RunResult.errOf {ε α : Type} : RunResult ε α → Option ε
  | .err e => some e
  | _ => none

/-- The inner loop of `Ascii::convert_to_image`: write one line's symbols
at row `h`, columns `w`, `w+1`, …; abort on the first unmapped symbol. -/
def fillLine : GrayImage → ℕ → List Char → ℕ → RunResult ConvertError GrayImage
  | img, _, [], _ => .ok img
  | img, h, c :: rest, w =>
    match brightness_for_symbol c with
    | .error e => .err e
    | .ok b =>
      match img.put_pixel w h b with
      | none => .panicked
      | some img2 => fillLine img2 h rest (w + 1)

/-- The outer loop of `Ascii::convert_to_image`: one row per line. -/
def fillRows : GrayImage → ℕ → List (List Char) → RunResult ConvertError GrayImage
  | img, _, [] => .ok img
  | img, h, r :: rest =>
    match fillLine img h r 0 with
    | .ok img2 => fillRows img2 (h + 1) rest
    | .err e => .err e
    | .panicked => .panicked

/-- The `image` crate's resize filters. -/
inductive FilterType
  | Nearest
  | Triangle
  | CatmullRom
  | Gaussian
  | Lanczos3
deriving DecidableEq

/-- The arguments handed to `imageops::resize`: the populated raster, the
target width and height, and the filter.  The resampling itself and the
PNG encoding are external `image`-crate code, outside this model. -/
structure ResizedImage where
  src : GrayImage
  nwidth : ℕ
  nheight : ℕ
  filter : FilterType

/-- `MIN_IMAGE_DIMENSION` of `src/converter/ascii.rs`. -/
def MIN_IMAGE_DIMENSION : ℕ := 500

/-- `Ascii::convert_to_image`: compute dimensions, fill the raster (first
unmapped symbol aborts; an out-of-bounds write panics), scale the
dimensions up to the 500 minimum, and resize to `(width / 2, height)`
with the Triangle filter. -/
def convert_to_image (data : List Char) : RunResult ConvertError ResizedImage :=
  let dimension := get_dimensions data
  let img := GrayImage.new dimension.width dimension.height
  match fillRows img 0 (rlines data) with
  | .err e => .err e
  | .panicked => .panicked
  | .ok filled =>
    let d2 := dimension.scale_up MIN_IMAGE_DIMENSION
    .ok ⟨filled, d2.width / 2, d2.height, .Triangle⟩

/-- The pre-resize raster brightness of a successful conversion. -/
def convertedPix (r : RunResult ConvertError ResizedImage) (x y : ℕ) : ℕ :=
  match r with
  | .ok o => o.src.pix x y
  | _ => 0

/-- The resize target width of a successful conversion. -/
def convertedWidth (r : RunResult ConvertError ResizedImage) : ℕ :=
  match r with
  | .ok o => o.nwidth
  | _ => 0

/-- The resize target height of a successful conversion. -/
def convertedHeight (r : RunResult ConvertError ResizedImage) : ℕ :=
  match r with
  | .ok o => o.nheight
  | _ => 0

/-- The resize filter of a successful conversion. -/
def convertedFilter (r : RunResult ConvertError ResizedImage) : FilterType :=
  match r with
  | .ok o => o.filter
  | _ => .Nearest

/-- The position of a symbol in the alphabet, as the source computes it
(`SYMBOLS.into_iter().position(...)`), defaulting past the end for
non-members. -/
def symPos (c : Char) : ℕ := (SYMBOLS.findIdx? (fun x => x == c)).getD 70

lemma brightness_of_not_mem {c : Char} (h : c ∉ SYMBOLS) :
    brightness_for_symbol c = .error (.UnknownASCIISymbol c) := by
  have hf : SYMBOLS.findIdx? (fun x => x == c) = none := by
    rw [List.findIdx?_eq_none_iff]
    intro x hx
    exact beq_eq_false_iff_ne.mpr (fun he => h (he ▸ hx))
  unfold brightness_for_symbol
  rw [hf]

lemma brightness_of_mem {c : Char} (h : c ∈ SYMBOLS) :
    ∃ b, brightness_for_symbol c = .ok b := by
  unfold brightness_for_symbol
  cases hf : SYMBOLS.findIdx? (fun x => x == c) with
  | none =>
    rw [List.findIdx?_eq_none_iff] at hf
    have := hf c h
    simp at this
  | some p => exact ⟨_, rfl⟩

/-- C1.  The claimed inverse consistency fails on the code: the alphabet
member `'@'` (position 1) round-trips through `brightness_for_symbol` and
`symbol_for_brightness` to `'$'` (position 0), not to itself. -/
theorem roundtrip_not_identity_at_atSign :
    '@' ∈ SYMBOLS ∧ roundTrip '@' = some '$' ∧ some '$' ≠ some '@' := by
  refine ⟨by decide, by decide, by decide⟩

/-- C1 (amended).  For a symbol `s` at position `p` of the alphabet,
`symbol_for_brightness (brightness_for_symbol s)` returns `s` itself
exactly when `p` is a multiple of 20 (so `p * 3.65` is an integer and
truncation loses nothing); for every other alphabet member it returns the
symbol at position `p - 1`. -/
theorem roundtrip_hits_predecessor :
    ∀ s ∈ SYMBOLS,
      roundTrip s =
        (if symPos s % 20 = 0 then some s else SYMBOLS.get? (symPos s - 1)) := by
  decide

/-- Witness for C1 (amended) at the concrete symbol `'@'`. -/
theorem roundtrip_hits_predecessor_witness :
    '@' ∈ SYMBOLS ∧
      roundTrip '@' =
        (if symPos '@' % 20 = 0 then some '@' else SYMBOLS.get? (symPos '@' - 1)) :=
  ⟨by decide, roundtrip_hits_predecessor '@' (by decide)⟩

/-- C2.  `symbol_for_brightness` is total on bytes: for every `b < 256`
the computed bucket index is in bounds (the lookup yields `some`), the
result is an alphabet member, and over the whole byte range exactly 70
distinct symbols are produced. -/
theorem symbol_for_brightness_total_and_onto :
    (∀ b, b < 256 →
        (symbol_for_brightness b).isSome = true ∧
          (symbol_for_brightness b).getD ' ' ∈ SYMBOLS) ∧
      ((List.range 256).filterMap symbol_for_brightness).dedup.length = 70 := by
  constructor
  · decide
  · decide

/-- Witness for C2 at the concrete byte 0. -/
theorem symbol_for_brightness_total_and_onto_witness :
    (0 < 256) ∧
      ((symbol_for_brightness 0).isSome = true ∧
        (symbol_for_brightness 0).getD ' ' ∈ SYMBOLS) :=
  ⟨by decide, symbol_for_brightness_total_and_onto.1 0 (by decide)⟩

/-- C4.  The concrete scaling behaviour: `(150,500)` scaled down to the
bound 300 gives `(90,300)`; `(300,90)` scaled up to the bound 500 gives
`(500,150)`; `(200,190)` is already within the bound 200 and is returned
unchanged. -/
theorem dimension_scaling_examples :
    Dimension.scale_down ⟨150, 500⟩ 300 = ⟨90, 300⟩ ∧
      Dimension.scale_up ⟨300, 90⟩ 500 = ⟨500, 150⟩ ∧
      Dimension.scale_down ⟨200, 190⟩ 200 = ⟨200, 190⟩ := by
  refine ⟨by decide, by decide, by decide⟩

/-- C6.  `brightness_for_symbol` fails with `UnknownASCIISymbol c` exactly
on non-members of the alphabet, and on a member at position `p` it returns
`p * 3.65` truncated to an integer, i.e. `73 * p / 20`. -/
theorem brightness_for_symbol_spec :
    ∀ c : Char,
      (c ∈ SYMBOLS → brightness_for_symbol c = .ok (73 * symPos c / 20)) ∧
        (c ∉ SYMBOLS → brightness_for_symbol c = .error (.UnknownASCIISymbol c)) := by
  intro c
  constructor
  · have hall : ∀ s ∈ SYMBOLS, brightness_for_symbol s = .ok (73 * symPos s / 20) := by
      decide
    exact fun h => hall c h
  · exact fun h => brightness_of_not_mem h

/-- Witness for C6 at the non-member `'P'` and the member `'$'`. -/
theorem brightness_for_symbol_spec_witness :
    ('P' ∉ SYMBOLS ∧ brightness_for_symbol 'P' = .error (.UnknownASCIISymbol 'P')) ∧
      ('$' ∈ SYMBOLS ∧ brightness_for_symbol '$' = .ok (73 * symPos '$' / 20)) :=
  ⟨⟨by decide, (brightness_for_symbol_spec 'P').2 (by decide)⟩,
    ⟨by decide, (brightness_for_symbol_spec '$').1 (by decide)⟩⟩

lemma log2F_spec :
    ∀ (fuel n : ℕ), 1 ≤ n → n < 2 ^ fuel →
      2 ^ (log2F fuel n) ≤ n ∧ n < 2 ^ (log2F fuel n + 1) := by
  intro fuel
  induction fuel with
  | zero => intro n h1 h2; omega
  | succ f ih =>
    intro n h1 h2
    by_cases h : 2 ≤ n
    · have hdiv1 : 1 ≤ n / 2 := by omega
      have hdiv2 : n / 2 < 2 ^ f := by
        have hp : (2 : ℕ) ^ (f + 1) = 2 ^ f * 2 := by rw [pow_succ]
        omega
      obtain ⟨hl, hr⟩ := ih (n / 2) hdiv1 hdiv2
      have hstep : log2F (f + 1) n = log2F f (n / 2) + 1 := by
        simp [log2F, h]
      rw [hstep]
      constructor
      · calc 2 ^ (log2F f (n / 2) + 1) = 2 ^ log2F f (n / 2) * 2 := by rw [pow_succ]
          _ ≤ (n / 2) * 2 := by omega
          _ ≤ n := by omega
      · calc n < (n / 2 + 1) * 2 := by omega
          _ ≤ (2 ^ (log2F f (n / 2) + 1)) * 2 := by
              have : n / 2 + 1 ≤ 2 ^ (log2F f (n / 2) + 1) := hr
              omega
          _ = 2 ^ (log2F f (n / 2) + 1 + 1) := (pow_succ 2 _).symm
    · have hstep : log2F (f + 1) n = 0 := by
        simp [log2F, h]
      rw [hstep]
      omega

lemma rne_ge_one {a : Frac} (hden : 0 < a.den) (hval : a.den ≤ a.num) : 1 ≤ a.rne := by
  have hfe : a.num.fdiv a.den = a.num / a.den := Int.fdiv_eq_ediv a.num (le_of_lt hden)
  have hfloor : 1 ≤ a.floor := by
    unfold Frac.floor
    rw [hfe]
    rw [Int.le_ediv_iff_mul_le hden]
    omega
  unfold Frac.rne
  dsimp only
  split
  · exact hfloor
  · split
    · omega
    · split <;> omega

lemma fl_of_num_zero {q : Frac} (h : q.num = 0) : fl q = .finite ⟨0, 1⟩ := by
  unfold fl
  rw [if_pos h]

lemma natF32_zero : natF32 0 = .finite ⟨0, 1⟩ := rfl

lemma flPos_shape (q : Frac) : flPos q = .inf ∨ ∃ a, flPos q = .finite a := by
  unfold flPos
  split
  · exact Or.inl rfl
  · exact Or.inr ⟨_, rfl⟩

lemma natF32_shape (n : ℕ) : natF32 n = .inf ∨ ∃ a, natF32 n = .finite a := by
  unfold natF32 fl
  dsimp only
  split
  · exact Or.inr ⟨_, rfl⟩
  · split
    · exact flPos_shape _
    · omega

lemma natF32_pos_finite_num_ne_zero {n : ℕ} {r : Frac} (hn : n ≠ 0)
    (hr : natF32 n = .finite r) : r.num ≠ 0 := by
  have hnum : ((⟨(n : ℤ), 1⟩ : Frac)).num ≠ 0 := by
    simp only []
    exact_mod_cast hn
  unfold natF32 fl at hr
  rw [if_neg hnum] at hr
  have hpos : (0 : ℤ) < (⟨(n : ℤ), 1⟩ : Frac).num := by
    simp only []
    exact_mod_cast Nat.pos_of_ne_zero hn
  rw [if_pos hpos] at hr
  -- now `hr : flPos ⟨n, 1⟩ = .finite r`; analyse `flPos`
  unfold flPos at hr
  split at hr
  · exact absurd hr (by intro hc; cases hc)
  · -- the rounded mantissa is at least 1, hence the numerator is nonzero
    rename_i hover
    set e : ℤ := binadeExp ⟨(n : ℤ), 1⟩ with he
    have hble : Frac.ble Frac.one ⟨(n : ℤ), 1⟩ = true := by
      unfold Frac.ble Frac.one
      simp only [one_mul, mul_one, decide_eq_true_eq]
      exact_mod_cast Nat.one_le_iff_ne_zero.mpr hn
    have hefl : e = (log2F 200 n : ℤ) := by
      rw [he]
      unfold binadeExp
      rw [if_pos hble]
      unfold Frac.floor
      simp [Int.fdiv_one]
    have hnbound : (n : ℤ) < 2 ^ 128 - 2 ^ 103 := by
      unfold Frac.ble F32_OVERFLOW at hover
      simp only [one_mul, mul_one, decide_eq_true_eq] at hover
      omega
    have hnlt200 : n < 2 ^ 200 := by
      have h1 : (n : ℤ) < 2 ^ 128 := by omega
      have h2 : ((2 : ℤ) ^ 128 : ℤ) ≤ 2 ^ 200 := by norm_num
      have : (n : ℤ) < 2 ^ 200 := lt_of_lt_of_le h1 h2
      exact_mod_cast this
    obtain ⟨hlow, hhigh⟩ := log2F_spec 200 n (Nat.one_le_iff_ne_zero.mpr hn) hnlt200
    have hk : max (e - 23) (-149) = e - 23 := by
      rw [hefl]
      have : (0 : ℤ) ≤ (log2F 200 n : ℤ) := Int.natCast_nonneg _
      omega
    simp only [hk] at hr
    -- the scaled value `n * 2^(23 - e)` is at least 1
    have hval :
        0 < ((⟨(n : ℤ), 1⟩ : Frac).mulPow2 (-(e - 23))).den ∧
        ((⟨(n : ℤ), 1⟩ : Frac).mulPow2 (-(e - 23))).den ≤
          ((⟨(n : ℤ), 1⟩ : Frac).mulPow2 (-(e - 23))).num := by
      have hneg : (-(e - 23) : ℤ) = 23 - e := by ring
      rw [hneg]
      cases hcase : (23 - e : ℤ) with
      | ofNat m =>
        simp only [Frac.mulPow2]
        constructor
        · exact one_pos
        · have h2m : (1 : ℤ) ≤ 2 ^ m := by exact_mod_cast Nat.one_le_two_pow
          have hn1 : (1 : ℤ) ≤ (n : ℤ) := by exact_mod_cast Nat.one_le_iff_ne_zero.mpr hn
          calc (1 : ℤ) = 1 * 1 := by ring
            _ ≤ (n : ℤ) * 2 ^ m := by
                exact mul_le_mul hn1 h2m (by norm_num) (by omega)
      | negSucc m =>
        simp only [Frac.mulPow2]
        constructor
        · positivity
        · -- here `e = 24 + m`, and `2^e ≤ n` gives `2^(m+1) ≤ n`
          have hem : (e : ℤ) = 24 + m := by
            have := Int.negSucc_eq m
            omega
          have he' : (24 + m : ℕ) = e.toNat := by omega
          have h2em : (2 : ℕ) ^ (m + 1) ≤ 2 ^ (24 + m) := by
            apply Nat.pow_le_pow_right <;> omega
          have hlow' : (2 : ℕ) ^ (24 + m) ≤ n := by
            have : e.toNat = log2F 200 n := by omega
            rw [he', this]
            exact hlow
          have : (2 : ℕ) ^ (m + 1) ≤ n := le_trans h2em hlow'
          simpa using (by exact_mod_cast this : ((2 : ℤ) ^ (m + 1)) ≤ (n : ℤ))
    obtain ⟨hd, hv⟩ := hval
    have hm : 1 ≤ ((⟨(n : ℤ), 1⟩ : Frac).mulPow2 (-(e - 23))).rne := rne_ge_one hd hv
    -- conclude: the constructed numerator is positive
    have hfin : Frac.scalePow2 (((⟨(n : ℤ), 1⟩ : Frac).mulPow2 (-(e - 23))).rne) (e - 23) = r := by
      injection hr
    rw [← hfin]
    cases hcase : (e - 23 : ℤ) with
    | ofNat m =>
      rw [hcase] at hm
      simp only [Frac.scalePow2]
      have h2m : (0 : ℤ) < 2 ^ m := by positivity
      exact ne_of_gt (mul_pos (by omega) h2m)
    | negSucc m =>
      rw [hcase] at hm
      simp only [Frac.scalePow2]
      omega

lemma div_zero_by_natF32 {n : ℕ} (h : n ≠ 0) :
    F32.div (.finite ⟨0, 1⟩) (natF32 n) = .finite ⟨0, 1⟩ := by
  rcases natF32_shape n with hs | ⟨a, hs⟩
  · rw [hs]; rfl
  · rw [hs]
    have hnum : a.num ≠ 0 := natF32_pos_finite_num_ne_zero h hs
    show (if a.num = 0 then _ else fl (Frac.div ⟨0, 1⟩ a)) = F32.finite ⟨0, 1⟩
    rw [if_neg hnum]
    apply fl_of_num_zero
    unfold Frac.div
    split <;> simp

lemma mul_natF32_zero_cast (cap n : ℕ) :
    F32.toNatCast cap (F32.mul (natF32 n) (.finite ⟨0, 1⟩)) = 0 := by
  rcases natF32_shape n with hs | ⟨a, hs⟩
  · rw [hs]; rfl
  · rw [hs]
    show F32.toNatCast cap (fl (a.mul ⟨0, 1⟩)) = 0
    rw [fl_of_num_zero (by unfold Frac.mul; simp)]
    show (if (0 : ℤ) < 0 then (0 : ℕ) else min (Int.fdiv 0 1).toNat cap) = 0
    simp

lemma mul_nan (x : F32) : F32.mul x .nan = .nan := by cases x <;> rfl

lemma div_zero_zero : F32.div (.finite ⟨0, 1⟩) (.finite ⟨0, 1⟩) = .nan := rfl

lemma scale_w0 {w : ℕ} (n : ℕ) (hw : 0 < w) : Dimension.scale ⟨w, 0⟩ n = ⟨n, 0⟩ := by
  unfold Dimension.scale
  rw [if_pos (show (⟨w, 0⟩ : Dimension).height < (⟨w, 0⟩ : Dimension).width from hw)]
  show (⟨n, F32.toNatCast U32_MAX
      (F32.mul (natF32 n) (F32.div (natF32 0) (natF32 w)))⟩ : Dimension) = ⟨n, 0⟩
  rw [natF32_zero, div_zero_by_natF32 (Nat.pos_iff_ne_zero.mp hw), mul_natF32_zero_cast]

lemma scale_0h {h : ℕ} (n : ℕ) (hh : 0 < h) : Dimension.scale ⟨0, h⟩ n = ⟨0, n⟩ := by
  unfold Dimension.scale
  rw [if_neg (show ¬((⟨0, h⟩ : Dimension).height < (⟨0, h⟩ : Dimension).width) from
    Nat.not_lt_zero h)]
  show (⟨F32.toNatCast U32_MAX
      (F32.mul (natF32 n) (F32.div (natF32 0) (natF32 h))), n⟩ : Dimension) = ⟨0, n⟩
  rw [natF32_zero, div_zero_by_natF32 (Nat.pos_iff_ne_zero.mp hh), mul_natF32_zero_cast]

lemma scale_00 (n : ℕ) : Dimension.scale ⟨0, 0⟩ n = ⟨0, n⟩ := by
  unfold Dimension.scale
  rw [if_neg (show ¬((⟨0, 0⟩ : Dimension).height < (⟨0, 0⟩ : Dimension).width) from
    Nat.not_lt_zero 0)]
  show (⟨F32.toNatCast U32_MAX
      (F32.mul (natF32 n) (F32.div (natF32 0) (natF32 0))), n⟩ : Dimension) = ⟨0, n⟩
  rw [natF32_zero, div_zero_zero, mul_nan]
  rfl

/-- C3.  The claimed no-op on degenerate dimensions fails on the code:
scaling the all-zero dimension up to the bound 500 changes it to
`(0, 500)` (the `0/0` NaN ratio is saturating-cast to width 0 while the
dominant axis is set to the bound). -/
theorem scale_up_zero_dimension_changes :
    Dimension.scale_up ⟨0, 0⟩ 500 = ⟨0, 500⟩ ∧
      (⟨0, 500⟩ : Dimension) ≠ (⟨0, 0⟩ : Dimension) := by
  refine ⟨by decide, by decide⟩

/-- C3 (amended).  Degenerate dimensions are not in general no-ops.  For
every bound: `scale_down` leaves `(0,0)` unchanged; `scale_up` on `(0,0)`
with a positive bound sets the height to the bound (the `0/0` NaN is
saturating-cast to 0, so the width stays 0); on a single-axis-zero
dimension either scaling is a no-op exactly when the guard already holds,
and otherwise sets the nonzero axis to the bound while the zero axis stays
0 (the guarded `0/x` ratio is exactly 0, so no NaN/Inf-derived value other
than 0 reaches the stored fields). -/
theorem scale_degenerate_axis_behavior :
    ∀ n w h : ℕ,
      Dimension.scale_down ⟨0, 0⟩ n = ⟨0, 0⟩ ∧
      (0 < n → Dimension.scale_up ⟨0, 0⟩ n = ⟨0, n⟩) ∧
      (0 < w → Dimension.scale_down ⟨w, 0⟩ n = if w ≤ n then ⟨w, 0⟩ else ⟨n, 0⟩) ∧
      (0 < w → Dimension.scale_up ⟨w, 0⟩ n = if n ≤ w then ⟨w, 0⟩ else ⟨n, 0⟩) ∧
      (0 < h → Dimension.scale_down ⟨0, h⟩ n = if h ≤ n then ⟨0, h⟩ else ⟨0, n⟩) ∧
      (0 < h → Dimension.scale_up ⟨0, h⟩ n = if n ≤ h then ⟨0, h⟩ else ⟨0, n⟩) := by
  intro n w h
  refine ⟨?_, ?_, ?_, ?_, ?_, ?_⟩
  · unfold Dimension.scale_down
    rw [if_pos ⟨Nat.zero_le n, Nat.zero_le n⟩]
  · intro hn
    unfold Dimension.scale_up
    rw [if_neg (by rintro (hc | hc) <;> exact absurd (show n ≤ 0 from hc) (by omega))]
    exact scale_00 n
  · intro hw
    unfold Dimension.scale_down
    by_cases hcond : w ≤ n
    · rw [if_pos ⟨hcond, Nat.zero_le n⟩, if_pos hcond]
    · rw [if_neg (fun hc => hcond hc.1), if_neg hcond]
      exact scale_w0 n hw
  · intro hw
    unfold Dimension.scale_up
    by_cases hcond : n ≤ w
    · rw [if_pos (Or.inl hcond), if_pos hcond]
    · rw [if_neg (by
        rintro (hc | hc)
        · exact hcond (show n ≤ w from hc)
        · exact hcond (le_trans (show n ≤ 0 from hc) (Nat.zero_le w))), if_neg hcond]
      exact scale_w0 n hw
  · intro hh
    unfold Dimension.scale_down
    by_cases hcond : h ≤ n
    · rw [if_pos ⟨Nat.zero_le n, hcond⟩, if_pos hcond]
    · rw [if_neg (fun hc => hcond hc.2), if_neg hcond]
      exact scale_0h n hh
  · intro hh
    unfold Dimension.scale_up
    by_cases hcond : n ≤ h
    · rw [if_pos (Or.inr hcond), if_pos hcond]
    · rw [if_neg (by
        rintro (hc | hc)
        · exact hcond (le_trans (show n ≤ 0 from hc) (Nat.zero_le h))
        · exact hcond (show n ≤ h from hc)), if_neg hcond]
      exact scale_0h n hh

/-- Witness for C3 (amended) at the concrete bounds 500 and axes 3 and 7. -/
theorem scale_degenerate_axis_behavior_witness :
    Dimension.scale_down ⟨0, 0⟩ 500 = ⟨0, 0⟩ ∧
      (0 < 500 ∧ Dimension.scale_up ⟨0, 0⟩ 500 = ⟨0, 500⟩) ∧
      (0 < 3 ∧ Dimension.scale_down ⟨3, 0⟩ 500 = if 3 ≤ 500 then ⟨3, 0⟩ else ⟨500, 0⟩) ∧
      (0 < 3 ∧ Dimension.scale_up ⟨3, 0⟩ 500 = if 500 ≤ 3 then ⟨3, 0⟩ else ⟨500, 0⟩) ∧
      (0 < 7 ∧ Dimension.scale_down ⟨0, 7⟩ 500 = if 7 ≤ 500 then ⟨0, 7⟩ else ⟨0, 500⟩) ∧
      (0 < 7 ∧ Dimension.scale_up ⟨0, 7⟩ 500 = if 500 ≤ 7 then ⟨0, 7⟩ else ⟨0, 500⟩) :=
  ⟨(scale_degenerate_axis_behavior 500 3 7).1,
    ⟨by decide, (scale_degenerate_axis_behavior 500 3 7).2.1 (by decide)⟩,
    ⟨by decide, (scale_degenerate_axis_behavior 500 3 7).2.2.1 (by decide)⟩,
    ⟨by decide, (scale_degenerate_axis_behavior 500 3 7).2.2.2.1 (by decide)⟩,
    ⟨by decide, (scale_degenerate_axis_behavior 500 3 7).2.2.2.2.1 (by decide)⟩,
    ⟨by decide, (scale_degenerate_axis_behavior 500 3 7).2.2.2.2.2 (by decide)⟩⟩

lemma gd_height_aux :
    ∀ (rows : List (List Char)) (d : Dimension),
      d.height + rows.length < U32M →
      (rows.foldl gdStep d).height = d.height + rows.length := by
  intro rows
  induction rows with
  | nil => intro d _; simp
  | cons r rows ih =>
    intro d hlt
    simp only [List.foldl_cons, List.length_cons] at hlt ⊢
    have hstep : (gdStep d r).height = d.height + 1 := by
      unfold gdStep
      dsimp only
      exact Nat.mod_eq_of_lt (by omega)
    rw [ih (gdStep d r) (by rw [hstep]; omega), hstep]
    omega

lemma gd_width_aux :
    ∀ (rows : List (List Char)) (d : Dimension),
      (∀ l ∈ rows, utf8len l < U32M) →
      (rows.foldl gdStep d).width =
        rows.foldl (fun a l => max a (utf8len l)) d.width := by
  intro rows
  induction rows with
  | nil => intro d _; simp
  | cons r rows ih =>
    intro d hlt
    simp only [List.foldl_cons]
    have hr : utf8len r % U32M = utf8len r := Nat.mod_eq_of_lt (hlt r (by simp))
    have hstep : (gdStep d r).width = max d.width (utf8len r) := by
      unfold gdStep
      dsimp only
      rw [hr]
      split <;> omega
    rw [ih (gdStep d r) (fun l hl => hlt l (by simp [hl])), hstep]

lemma foldl_max_init_le :
    ∀ (rows : List (List Char)) (a : ℕ),
      a ≤ rows.foldl (fun a l => max a (utf8len l)) a := by
  intro rows
  induction rows with
  | nil => intro a; simp
  | cons r rows ih =>
    intro a
    simp only [List.foldl_cons]
    exact le_trans (le_max_left a (utf8len r)) (ih _)

lemma foldl_max_ge {rows : List (List Char)} {r : List Char} (hmem : r ∈ rows) :
    ∀ a : ℕ, utf8len r ≤ rows.foldl (fun a l => max a (utf8len l)) a := by
  induction rows with
  | nil => cases hmem
  | cons x rows ih =>
    intro a
    simp only [List.foldl_cons]
    rcases List.mem_cons.mp hmem with he | hm
    · exact le_trans (he ▸ le_max_right a (utf8len r)) (foldl_max_init_le _ _)
    · exact ih hm _

lemma length_le_utf8len (l : List Char) : l.length ≤ utf8len l := by
  induction l with
  | nil => simp [utf8len]
  | cons c l ih =>
    unfold utf8len at ih ⊢
    simp only [List.map_cons, List.sum_cons, List.length_cons]
    have := Char.utf8Size_pos c
    omega

lemma gd_height_eq {data : List Char} (hlen : (rlines data).length < U32M) :
    (get_dimensions data).height = (rlines data).length := by
  show ((rlines data).foldl gdStep Dimension.new).height = _
  rw [gd_height_aux _ _ (show Dimension.new.height + (rlines data).length < U32M by
    simpa [Dimension.new] using hlen)]
  simp [Dimension.new]

lemma gd_width_ge {data : List Char} (hw : ∀ l ∈ rlines data, utf8len l < U32M) :
    ∀ r ∈ rlines data, utf8len r ≤ (get_dimensions data).width := by
  intro r hr
  have hgw : (get_dimensions data).width =
      (rlines data).foldl (fun a l => max a (utf8len l)) 0 := by
    show ((rlines data).foldl gdStep Dimension.new).width = _
    rw [gd_width_aux _ _ hw]
    rfl
  rw [hgw]
  exact foldl_max_ge hr 0

/-- C7.  `get_dimensions` computes height = number of lines and width =
byte length of the longest line (for inputs whose line count and line
lengths fit in `u32`), and the concrete examples of the spec hold. -/
theorem get_dimensions_spec :
    (∀ data : List Char,
        (rlines data).length < U32M →
        (∀ l ∈ rlines data, utf8len l < U32M) →
        (get_dimensions data).height = (rlines data).length ∧
          (get_dimensions data).width =
            (rlines data).foldl (fun a l => max a (utf8len l)) 0) ∧
      get_dimensions ['1', '\n', '1', '\n', '1', '2', '3', '\n', '1'] = ⟨3, 4⟩ ∧
      get_dimensions ['a'] = ⟨1, 1⟩ ∧
      get_dimensions ['b', 'b', 'b'] = ⟨3, 1⟩ := by
  refine ⟨?_, by decide, by decide, by decide⟩
  intro data hlen hw
  refine ⟨gd_height_eq hlen, ?_⟩
  show ((rlines data).foldl gdStep Dimension.new).width = _
  rw [gd_width_aux _ _ hw]
  rfl

/-- Witness for C7 at the concrete input `"a"`. -/
theorem get_dimensions_spec_witness :
    ((rlines ['a']).length < U32M ∧ (∀ l ∈ rlines ['a'], utf8len l < U32M)) ∧
      ((get_dimensions ['a']).height = (rlines ['a']).length ∧
        (get_dimensions ['a']).width =
          (rlines ['a']).foldl (fun a l => max a (utf8len l)) 0) :=
  ⟨⟨by decide, by decide⟩, get_dimensions_spec.1 ['a'] (by decide) (by decide)⟩

lemma fillLine_cons_err {c : Char} {e : ConvertError} (img : GrayImage) (h w : ℕ)
    (rest : List Char) (hb : brightness_for_symbol c = .error e) :
    fillLine img h (c :: rest) w = .err e := by
  show (match brightness_for_symbol c with
    | .error e => RunResult.err e
    | .ok b =>
      match img.put_pixel w h b with
      | none => RunResult.panicked
      | some img2 => fillLine img2 h rest (w + 1)) = _
  rw [hb]

lemma fillLine_cons_ok {c : Char} {b : ℕ} {img1 : GrayImage} (img : GrayImage) (h w : ℕ)
    (rest : List Char) (hb : brightness_for_symbol c = .ok b)
    (hpp : img.put_pixel w h b = some img1) :
    fillLine img h (c :: rest) w = fillLine img1 h rest (w + 1) := by
  have hmid : fillLine img h (c :: rest) w =
      match img.put_pixel w h b with
      | none => RunResult.panicked
      | some img2 => fillLine img2 h rest (w + 1) := by
    show (match brightness_for_symbol c with
      | .error e => RunResult.err e
      | .ok b0 =>
        match img.put_pixel w h b0 with
        | none => RunResult.panicked
        | some img2 => fillLine img2 h rest (w + 1)) = _
    rw [hb]
  rw [hmid, hpp]

lemma fillLine_cons_panic {c : Char} {b : ℕ} (img : GrayImage) (h w : ℕ)
    (rest : List Char) (hb : brightness_for_symbol c = .ok b)
    (hpp : img.put_pixel w h b = none) :
    fillLine img h (c :: rest) w = .panicked := by
  have hmid : fillLine img h (c :: rest) w =
      match img.put_pixel w h b with
      | none => RunResult.panicked
      | some img2 => fillLine img2 h rest (w + 1) := by
    show (match brightness_for_symbol c with
      | .error e => RunResult.err e
      | .ok b0 =>
        match img.put_pixel w h b0 with
        | none => RunResult.panicked
        | some img2 => fillLine img2 h rest (w + 1)) = _
    rw [hb]
  rw [hmid, hpp]

lemma fillRows_cons_ok {img img1 : GrayImage} {r : List Char} {h : ℕ}
    {rows : List (List Char)} (hfl : fillLine img h r 0 = .ok img1) :
    fillRows img h (r :: rows) = fillRows img1 (h + 1) rows := by
  show (match fillLine img h r 0 with
    | .ok img2 => fillRows img2 (h + 1) rows
    | .err e => RunResult.err e
    | .panicked => RunResult.panicked) = _
  rw [hfl]

lemma fillRows_cons_err {img : GrayImage} {r : List Char} {h : ℕ}
    {rows : List (List Char)} {e : ConvertError} (hfl : fillLine img h r 0 = .err e) :
    fillRows img h (r :: rows) = .err e := by
  show (match fillLine img h r 0 with
    | .ok img2 => fillRows img2 (h + 1) rows
    | .err e => RunResult.err e
    | .panicked => RunResult.panicked) = _
  rw [hfl]

lemma fillRows_cons_panic {img : GrayImage} {r : List Char} {h : ℕ}
    {rows : List (List Char)} (hfl : fillLine img h r 0 = .panicked) :
    fillRows img h (r :: rows) = .panicked := by
  show (match fillLine img h r 0 with
    | .ok img2 => fillRows img2 (h + 1) rows
    | .err e => RunResult.err e
    | .panicked => RunResult.panicked) = _
  rw [hfl]

lemma put_pixel_some {img img1 : GrayImage} {x y b : ℕ}
    (hpp : img.put_pixel x y b = some img1) :
    img1.width = img.width ∧ img1.height = img.height ∧
      ∀ x2 y2, ¬(x2 = x ∧ y2 = y) → img1.pix x2 y2 = img.pix x2 y2 := by
  unfold GrayImage.put_pixel at hpp
  split at hpp
  · obtain rfl := Option.some.inj hpp
    exact ⟨rfl, rfl, fun x2 y2 hne => if_neg hne⟩
  · cases hpp

lemma fillLine_ok :
    ∀ (line : List Char) (img : GrayImage) (h w : ℕ),
      (∀ c ∈ line, c ∈ SYMBOLS) → h < img.height → w + line.length ≤ img.width →
      ∃ img2, fillLine img h line w = .ok img2 ∧
        img2.width = img.width ∧ img2.height = img.height := by
  intro line
  induction line with
  | nil => intro img h w _ _ _; exact ⟨img, rfl, rfl, rfl⟩
  | cons c rest ih =>
    intro img h w hval hh hw
    obtain ⟨b, hb⟩ := brightness_of_mem (hval c (List.mem_cons_self c rest))
    have hx : w < img.width := by simp only [List.length_cons] at hw; omega
    have hpp : img.put_pixel w h b = some ⟨img.width, img.height,
        fun x2 y2 => if x2 = w ∧ y2 = h then b else img.pix x2 y2⟩ := by
      unfold GrayImage.put_pixel; rw [if_pos ⟨hx, hh⟩]
    rw [fillLine_cons_ok img h w rest hb hpp]
    obtain ⟨img2, he, hwid, hht⟩ :=
      ih ⟨img.width, img.height, fun x2 y2 => if x2 = w ∧ y2 = h then b else img.pix x2 y2⟩
        h (w + 1)
        (fun a ha => hval a (List.mem_cons_of_mem c ha))
        (show h < img.height from hh)
        (show (w + 1) + rest.length ≤ img.width from by
          simp only [List.length_cons] at hw; omega)
    exact ⟨img2, he, hwid, hht⟩

lemma fillLine_err :
    ∀ (pre : List Char) (c : Char) (suf : List Char) (img : GrayImage) (h w : ℕ),
      (∀ a ∈ pre, a ∈ SYMBOLS) → c ∉ SYMBOLS → h < img.height →
      w + pre.length ≤ img.width →
      fillLine img h (pre ++ c :: suf) w = .err (.UnknownASCIISymbol c) := by
  intro pre
  induction pre with
  | nil =>
    intro c suf img h w _ hc _ _
    rw [List.nil_append]
    exact fillLine_cons_err img h w suf (brightness_of_not_mem hc)
  | cons a pre ih =>
    intro c suf img h w hval hc hh hw
    obtain ⟨b, hb⟩ := brightness_of_mem (hval a (List.mem_cons_self a pre))
    have hx : w < img.width := by simp only [List.length_cons] at hw; omega
    have hpp : img.put_pixel w h b = some ⟨img.width, img.height,
        fun x2 y2 => if x2 = w ∧ y2 = h then b else img.pix x2 y2⟩ := by
      unfold GrayImage.put_pixel; rw [if_pos ⟨hx, hh⟩]
    rw [List.cons_append, fillLine_cons_ok img h w (pre ++ c :: suf) hb hpp]
    exact ih c suf _ h (w + 1)
      (fun a2 ha2 => hval a2 (List.mem_cons_of_mem a ha2)) hc
      (show h < img.height from hh)
      (show (w + 1) + pre.length ≤ img.width from by
        simp only [List.length_cons] at hw; omega)

lemma fillLine_frame :
    ∀ (line : List Char) (img : GrayImage) (h w : ℕ) (img2 : GrayImage),
      fillLine img h line w = .ok img2 →
      ∀ x y, (y ≠ h ∨ x < w ∨ w + line.length ≤ x) → img2.pix x y = img.pix x y := by
  intro line
  induction line with
  | nil =>
    intro img h w img2 he x y _
    obtain rfl := RunResult.ok.inj he
    rfl
  | cons c rest ih =>
    intro img h w img2 he x y hcond
    cases hb : brightness_for_symbol c with
    | error e => rw [fillLine_cons_err img h w rest hb] at he; cases he
    | ok b =>
      cases hpp : img.put_pixel w h b with
      | none => rw [fillLine_cons_panic img h w rest hb hpp] at he; cases he
      | some img1 =>
        rw [fillLine_cons_ok img h w rest hb hpp] at he
        have h1 := ih img1 h (w + 1) img2 he x y (by
          rcases hcond with h' | h' | h'
          · exact Or.inl h'
          · exact Or.inr (Or.inl (by omega))
          · refine Or.inr (Or.inr ?_)
            simp only [List.length_cons] at h'
            omega)
        rw [h1]
        obtain ⟨_, _, hpix⟩ := put_pixel_some hpp
        exact hpix x y (by
          rintro ⟨rfl, rfl⟩
          rcases hcond with h' | h' | h'
          · exact h' rfl
          · omega
          · simp only [List.length_cons] at h'; omega)

lemma fillRows_ok :
    ∀ (rows : List (List Char)) (img : GrayImage) (h : ℕ),
      (∀ r ∈ rows, ∀ c ∈ r, c ∈ SYMBOLS) →
      h + rows.length ≤ img.height →
      (∀ r ∈ rows, r.length ≤ img.width) →
      ∃ img2, fillRows img h rows = .ok img2 := by
  intro rows
  induction rows with
  | nil => intro img h _ _ _; exact ⟨img, rfl⟩
  | cons r rows ih =>
    intro img h hval hh hw
    obtain ⟨img1, he1, hw1, hh1⟩ := fillLine_ok r img h 0
      (hval r (List.mem_cons_self r rows))
      (by simp only [List.length_cons] at hh; omega)
      (by simpa using hw r (List.mem_cons_self r rows))
    rw [fillRows_cons_ok he1]
    exact ih img1 (h + 1)
      (fun r2 hr2 => hval r2 (List.mem_cons_of_mem r hr2))
      (by rw [hh1]; simp only [List.length_cons] at hh; omega)
      (fun r2 hr2 => by rw [hw1]; exact hw r2 (List.mem_cons_of_mem r hr2))

lemma fillRows_err :
    ∀ (preRows : List (List Char)) (p : List Char) (c : Char) (suf : List Char)
      (postRows : List (List Char)) (img : GrayImage) (h : ℕ),
      (∀ r ∈ preRows, ∀ a ∈ r, a ∈ SYMBOLS) →
      (∀ a ∈ p, a ∈ SYMBOLS) → c ∉ SYMBOLS →
      h + preRows.length < img.height →
      (∀ r ∈ preRows, r.length ≤ img.width) →
      p.length ≤ img.width →
      fillRows img h (preRows ++ (p ++ c :: suf) :: postRows) =
        .err (.UnknownASCIISymbol c) := by
  intro preRows
  induction preRows with
  | nil =>
    intro p c suf postRows img h _ hp hc hh _ hpw
    rw [List.nil_append]
    exact fillRows_cons_err (fillLine_err p c suf img h 0 hp hc (by omega) (by simpa using hpw))
  | cons r preRows ih =>
    intro p c suf postRows img h hval hp hc hh hw hpw
    obtain ⟨img1, he1, hw1, hh1⟩ := fillLine_ok r img h 0
      (hval r (List.mem_cons_self r preRows))
      (by simp only [List.length_cons] at hh; omega)
      (by simpa using hw r (List.mem_cons_self r preRows))
    rw [List.cons_append, fillRows_cons_ok he1]
    exact ih p c suf postRows img1 (h + 1)
      (fun r2 hr2 => hval r2 (List.mem_cons_of_mem r hr2)) hp hc
      (by rw [hh1]; simp only [List.length_cons] at hh; omega)
      (fun r2 hr2 => by rw [hw1]; exact hw r2 (List.mem_cons_of_mem r hr2))
      (by rw [hw1]; exact hpw)

lemma fillRows_frame :
    ∀ (rows : List (List Char)) (img : GrayImage) (h : ℕ) (img2 : GrayImage),
      fillRows img h rows = .ok img2 →
      ∀ x y, (∀ i, i < rows.length → y = h + i → (rows.getD i []).length ≤ x) →
        img2.pix x y = img.pix x y := by
  intro rows
  induction rows with
  | nil =>
    intro img h img2 he x y _
    obtain rfl := RunResult.ok.inj he
    rfl
  | cons r rows ih =>
    intro img h img2 he x y hcond
    cases hfl : fillLine img h r 0 with
    | ok img1 =>
      rw [fillRows_cons_ok hfl] at he
      have h2 := ih img1 (h + 1) img2 he x y (fun i hi hy => by
        have := hcond (i + 1) (by simp only [List.length_cons]; omega) (by omega)
        simpa using this)
      rw [h2]
      refine fillLine_frame r img h 0 img1 hfl x y ?_
      by_cases hyh : y = h
      · refine Or.inr (Or.inr ?_)
        have h0 := hcond 0 (by simp only [List.length_cons]; omega) (by omega)
        simp only [List.getD_cons_zero] at h0
        omega
      · exact Or.inl hyh
    | err e => rw [fillRows_cons_err hfl] at he; cases he
    | panicked => rw [fillRows_cons_panic hfl] at he; cases he

lemma line_split :
    ∀ l : List Char,
      (∀ a ∈ l, a ∈ SYMBOLS) ∨
        ∃ p c s, l = p ++ c :: s ∧ (∀ a ∈ p, a ∈ SYMBOLS) ∧ c ∉ SYMBOLS := by
  intro l
  induction l with
  | nil => left; intro a ha; cases ha
  | cons a l ih =>
    by_cases ha : a ∈ SYMBOLS
    · rcases ih with hall | ⟨p, c, s, he, hp, hc⟩
      · left
        intro x hx
        rcases List.mem_cons.mp hx with h' | h'
        · exact h' ▸ ha
        · exact hall x h'
      · right
        refine ⟨a :: p, c, s, by rw [he, List.cons_append], ?_, hc⟩
        intro x hx
        rcases List.mem_cons.mp hx with h' | h'
        · exact h' ▸ ha
        · exact hp x h'
    · right
      exact ⟨[], a, l, rfl, fun x hx => (List.not_mem_nil x hx).elim, ha⟩

lemma rows_split :
    ∀ rows : List (List Char),
      (∀ r ∈ rows, ∀ a ∈ r, a ∈ SYMBOLS) ∨
        ∃ preRows p c s postRows,
          rows = preRows ++ (p ++ c :: s) :: postRows ∧
            (∀ r ∈ preRows, ∀ a ∈ r, a ∈ SYMBOLS) ∧
            (∀ a ∈ p, a ∈ SYMBOLS) ∧ c ∉ SYMBOLS := by
  intro rows
  induction rows with
  | nil => left; intro r hr; cases hr
  | cons r rows ih =>
    rcases line_split r with hr | ⟨p, c, s, he, hp, hc⟩
    · rcases ih with hall | ⟨pre, p, c, s, post, he, hpre, hp, hc⟩
      · left
        intro r2 hr2
        rcases List.mem_cons.mp hr2 with h' | h'
        · exact h' ▸ hr
        · exact hall r2 h'
      · right
        refine ⟨r :: pre, p, c, s, post, by rw [he, List.cons_append], ?_, hp, hc⟩
        intro r2 hr2
        rcases List.mem_cons.mp hr2 with h' | h'
        · exact h' ▸ hr
        · exact hpre r2 h'
    · right
      exact ⟨[], p, c, s, rows, by rw [he]; rfl,
        fun r2 hr2 => (List.not_mem_nil r2 hr2).elim, hp, hc⟩

lemma convert_eq (data : List Char) :
    convert_to_image data =
      match fillRows
          (GrayImage.new (get_dimensions data).width (get_dimensions data).height) 0
          (rlines data) with
      | .err e => .err e
      | .panicked => .panicked
      | .ok filled =>
        .ok ⟨filled, ((get_dimensions data).scale_up MIN_IMAGE_DIMENSION).width / 2,
          ((get_dimensions data).scale_up MIN_IMAGE_DIMENSION).height, .Triangle⟩ := rfl

lemma scale_up_reaches (d : Dimension) (m : ℕ) :
    m ≤ max (d.scale_up m).width (d.scale_up m).height := by
  unfold Dimension.scale_up
  by_cases hc : m ≤ d.width ∨ m ≤ d.height
  · rw [if_pos hc]
    rcases hc with h | h
    · exact le_max_of_le_left h
    · exact le_max_of_le_right h
  · rw [if_neg hc]
    unfold Dimension.scale
    by_cases h2 : d.height < d.width
    · rw [if_pos h2]
      exact le_max_of_le_left (le_refl m)
    · rw [if_neg h2]
      exact le_max_of_le_right (le_refl m)

/-- C5.  `convert_to_image` aborts on the first character, in scan order
(rows top to bottom, each row left to right), that is not in the
alphabet: when the lines decompose into fully-valid leading rows and a
row whose first invalid character is `c`, the whole conversion returns
`UnknownASCIISymbol c` and no image output. -/
theorem convert_aborts_on_first_unknown_symbol :
    ∀ (data : List Char) (preRows : List (List Char)) (p : List Char) (c : Char)
      (suf : List Char) (postRows : List (List Char)),
      (rlines data).length < U32M →
      (∀ l ∈ rlines data, utf8len l < U32M) →
      rlines data = preRows ++ (p ++ c :: suf) :: postRows →
      (∀ r ∈ preRows, ∀ a ∈ r, a ∈ SYMBOLS) →
      (∀ a ∈ p, a ∈ SYMBOLS) →
      c ∉ SYMBOLS →
      convert_to_image data = .err (.UnknownASCIISymbol c) := by
  intro data preRows p c suf postRows hlen hw he hpre hp hc
  have hH : (get_dimensions data).height = (rlines data).length := gd_height_eq hlen
  have hW := gd_width_ge hw
  have hrows : (rlines data).length = preRows.length + (postRows.length + 1) := by
    rw [he]
    simp only [List.length_append, List.length_cons]
  have hrowmem : (p ++ c :: suf) ∈ rlines data := by
    rw [he]
    exact List.mem_append_right preRows (List.mem_cons_self _ postRows)
  have hplen : p.length ≤ (p ++ c :: suf).length := by
    simp only [List.length_append, List.length_cons]
    omega
  rw [convert_eq, he]
  rw [fillRows_err preRows p c suf postRows _ 0 hpre hp hc
    (show 0 + preRows.length < (get_dimensions data).height from by rw [hH]; omega)
    (fun r hr =>
      show r.length ≤ (get_dimensions data).width from
        le_trans (length_le_utf8len r)
          (hW r (by rw [he]; exact List.mem_append_left _ hr)))
    (show p.length ≤ (get_dimensions data).width from
      le_trans (le_trans hplen (length_le_utf8len _)) (hW _ hrowmem))]

/-- Witness for C5 at the concrete input `"P"`. -/
theorem convert_aborts_on_first_unknown_symbol_witness :
    ((rlines ['P']).length < U32M ∧ (∀ l ∈ rlines ['P'], utf8len l < U32M) ∧
        rlines ['P'] = [] ++ ([] ++ 'P' :: []) :: [] ∧ 'P' ∉ SYMBOLS) ∧
      convert_to_image ['P'] = .err (.UnknownASCIISymbol 'P') :=
  ⟨⟨by decide, by decide, by decide, by decide⟩,
    convert_aborts_on_first_unknown_symbol ['P'] [] [] 'P' [] [] (by decide) (by decide)
      (by decide) (fun r hr => (List.not_mem_nil r hr).elim)
      (fun a ha => (List.not_mem_nil a ha).elim) (by decide)⟩

/-- C8.  On every successful conversion the resize call receives the
dimensions scaled up by `scale_up` with the fixed minimum 500 (so the
larger scaled axis is at least 500), the target width halved relative to
the scaled width, the target height equal to the scaled height, and the
Triangle filter. -/
theorem convert_resize_parameters :
    ∀ data : List Char,
      (convert_to_image data).isOk = true →
      convertedWidth (convert_to_image data) =
          ((get_dimensions data).scale_up MIN_IMAGE_DIMENSION).width / 2 ∧
        convertedHeight (convert_to_image data) =
          ((get_dimensions data).scale_up MIN_IMAGE_DIMENSION).height ∧
        convertedFilter (convert_to_image data) = .Triangle ∧
        MIN_IMAGE_DIMENSION ≤
          max ((get_dimensions data).scale_up MIN_IMAGE_DIMENSION).width
            ((get_dimensions data).scale_up MIN_IMAGE_DIMENSION).height := by
  intro data hok
  cases hres : fillRows
      (GrayImage.new (get_dimensions data).width (get_dimensions data).height) 0
      (rlines data) with
  | ok img2 =>
    rw [convert_eq, hres]
    exact ⟨rfl, rfl, rfl, scale_up_reaches _ _⟩
  | err e => rw [convert_eq, hres] at hok; cases hok
  | panicked => rw [convert_eq, hres] at hok; cases hok

/-- Witness for C8 at the concrete input `"$"`. -/
theorem convert_resize_parameters_witness :
    (convert_to_image ['$']).isOk = true ∧
      (convertedWidth (convert_to_image ['$']) =
          ((get_dimensions ['$']).scale_up MIN_IMAGE_DIMENSION).width / 2 ∧
        convertedHeight (convert_to_image ['$']) =
          ((get_dimensions ['$']).scale_up MIN_IMAGE_DIMENSION).height ∧
        convertedFilter (convert_to_image ['$']) = .Triangle ∧
        MIN_IMAGE_DIMENSION ≤
          max ((get_dimensions ['$']).scale_up MIN_IMAGE_DIMENSION).width
            ((get_dimensions ['$']).scale_up MIN_IMAGE_DIMENSION).height) :=
  ⟨by rfl, convert_resize_parameters ['$'] (by rfl)⟩

/-- C9.  Raster cells in columns at or beyond the end of their own line
keep the zero brightness of the freshly allocated raster (they are never
written by the fill loop), and an input whose characters are all alphabet
members — short lines included — converts without error. -/
theorem short_lines_keep_default_brightness :
    ∀ data : List Char,
      (∀ i x, i < (rlines data).length →
          ((rlines data).getD i []).length ≤ x →
          convertedPix (convert_to_image data) x i = 0) ∧
      ((rlines data).length < U32M →
        (∀ l ∈ rlines data, utf8len l < U32M) →
        (∀ r ∈ rlines data, ∀ a ∈ r, a ∈ SYMBOLS) →
        (convert_to_image data).isOk = true) := by
  intro data
  constructor
  · intro i x hi hx
    cases hres : fillRows
        (GrayImage.new (get_dimensions data).width (get_dimensions data).height) 0
        (rlines data) with
    | ok img2 =>
      rw [convert_eq, hres]
      show img2.pix x i = 0
      have hframe := fillRows_frame (rlines data) _ 0 img2 hres x i (fun i2 hi2 hy => by
        have hieq : i2 = i := by omega
        rw [hieq]
        exact hx)
      rw [hframe]
      rfl
    | err e => rw [convert_eq, hres]; rfl
    | panicked => rw [convert_eq, hres]; rfl
  · intro hlen hw hall
    have hH : (get_dimensions data).height = (rlines data).length := gd_height_eq hlen
    have hW := gd_width_ge hw
    obtain ⟨img2, hok⟩ := fillRows_ok (rlines data)
      (GrayImage.new (get_dimensions data).width (get_dimensions data).height) 0 hall
      (show 0 + (rlines data).length ≤ (get_dimensions data).height from by rw [hH]; omega)
      (fun r hr =>
        show r.length ≤ (get_dimensions data).width from
          le_trans (length_le_utf8len r) (hW r hr))
    rw [convert_eq, hok]
    rfl

/-- Witness for C9 at the concrete input `".\n.."` (row 0 is shorter than
the raster width, so cell (1,0) stays 0), whose conversion succeeds. -/
theorem short_lines_keep_default_brightness_witness :
    (0 < (rlines ['.', '\n', '.', '.']).length ∧
        ((rlines ['.', '\n', '.', '.']).getD 0 []).length ≤ 1 ∧
        convertedPix (convert_to_image ['.', '\n', '.', '.']) 1 0 = 0) ∧
      ((rlines ['.', '\n', '.', '.']).length < U32M ∧
        (convert_to_image ['.', '\n', '.', '.']).isOk = true) :=
  ⟨⟨by decide, by decide,
      (short_lines_keep_default_brightness ['.', '\n', '.', '.']).1 0 1 (by decide) (by decide)⟩,
    ⟨by decide,
      (short_lines_keep_default_brightness ['.', '\n', '.', '.']).2 (by decide) (by decide)
        (by decide)⟩⟩

lemma splitNl_no_newline : ∀ l : List Char, '\n' ∉ l → splitNl l = [l] := by
  intro l
  induction l with
  | nil => intro _; rfl
  | cons c rest ih =>
    intro hmem
    have hc : ¬(c = '\n') := fun he => hmem (he ▸ List.mem_cons_self c rest)
    show (if c = '\n' then [] :: splitNl rest
      else
        match splitNl rest with
        | [] => [[c]]
        | l :: ls => (c :: l) :: ls) = [c :: rest]
    rw [if_neg hc, ih (fun hm => hmem (List.mem_cons_of_mem c hm))]

lemma rlines_single {l : List Char} (hn : '\n' ∉ l) (hne : l ≠ []) : rlines l = [l] := by
  unfold rlines
  rw [splitNl_no_newline l hn]
  show (if l = [] then [] else [l]) = [l]
  rw [if_neg hne]

lemma utf8len_replicate_dollar : ∀ n : ℕ, utf8len (List.replicate n '$') = n := by
  intro n
  induction n with
  | zero => rfl
  | succ m ih =>
    rw [List.replicate_succ]
    unfold utf8len at ih ⊢
    simp only [List.map_cons, List.sum_cons]
    rw [ih]
    have : Char.utf8Size '$' = 1 := rfl
    omega

lemma replicate_pos_cons {n : ℕ} (hn : 0 < n) (c : Char) :
    List.replicate n c = c :: List.replicate (n - 1) c := by
  cases n with
  | zero => omega
  | succ m => rw [List.replicate_succ, Nat.succ_sub_one]

/-- C10.  The claimed impossibility of out-of-bounds writes fails on the
code for inputs past the `u32` width: a single line of `2^32` alphabet
characters has its byte length truncated to 0 by `len as u32`, the
raster is allocated with width 0, and the very first `put_pixel` is out
of bounds — the conversion panics. -/
theorem convert_panics_on_giant_line :
    convert_to_image (List.replicate (2 ^ 32) '$') = .panicked := by
  have hmem : '\n' ∉ List.replicate (2 ^ 32) '$' := by
    intro hm
    exact absurd (List.eq_of_mem_replicate hm) (by decide)
  have hne : List.replicate (2 ^ 32) '$' ≠ [] := by
    intro he
    have hlen := congrArg List.length he
    simp only [List.length_replicate, List.length_nil] at hlen
    exact absurd hlen (by norm_num)
  have hr : rlines (List.replicate (2 ^ 32) '$') = [List.replicate (2 ^ 32) '$'] :=
    rlines_single hmem hne
  have hgd : get_dimensions (List.replicate (2 ^ 32) '$') = ⟨0, 1⟩ := by
    unfold get_dimensions
    rw [hr]
    show gdStep Dimension.new (List.replicate (2 ^ 32) '$') = ⟨0, 1⟩
    unfold gdStep
    simp only [utf8len_replicate_dollar]
    norm_num [U32M, Dimension.new]
  have hpp : (GrayImage.new 0 1).put_pixel 0 0 0 = none := by
    unfold GrayImage.put_pixel
    rw [if_neg]
    rintro ⟨h1, _⟩
    exact Nat.lt_irrefl 0 h1
  have hpanic :
      fillRows (GrayImage.new 0 1) 0 [List.replicate (2 ^ 32) '$'] = .panicked := by
    rw [replicate_pos_cons (by norm_num) '$']
    exact fillRows_cons_panic
      (fillLine_cons_panic (GrayImage.new 0 1) 0 0 (List.replicate (2 ^ 32 - 1) '$')
        (show brightness_for_symbol '$' = .ok 0 from by decide) hpp)
  rw [convert_eq, hgd, hr]
  rw [show ((⟨0, 1⟩ : Dimension)).width = 0 from rfl,
    show ((⟨0, 1⟩ : Dimension)).height = 1 from rfl, hpanic]

/-- C10 (amended).  For every input whose line count and line byte
lengths fit in `u32`, every write of the fill loop is within the
allocated raster (a line's character count never exceeds its byte
length, and the width is the maximum byte length), so `convert_to_image`
never panics; beyond the `u32` range the width truncation can put the
first write out of bounds. -/
theorem convert_never_panics :
    ∀ data : List Char,
      (rlines data).length < U32M →
      (∀ l ∈ rlines data, utf8len l < U32M) →
      convert_to_image data ≠ .panicked := by
  intro data hlen hw
  have hH : (get_dimensions data).height = (rlines data).length := gd_height_eq hlen
  have hW := gd_width_ge hw
  rw [convert_eq]
  rcases rows_split (rlines data) with hall | ⟨pre, p, c, s, post, he, hpre, hp, hc⟩
  · obtain ⟨img2, hok⟩ := fillRows_ok (rlines data)
      (GrayImage.new (get_dimensions data).width (get_dimensions data).height) 0 hall
      (show 0 + (rlines data).length ≤ (get_dimensions data).height from by rw [hH]; omega)
      (fun r hr =>
        show r.length ≤ (get_dimensions data).width from
          le_trans (length_le_utf8len r) (hW r hr))
    rw [hok]
    exact fun hcon => RunResult.noConfusion hcon
  · have hrows : (rlines data).length = pre.length + (post.length + 1) := by
      rw [he]
      simp only [List.length_append, List.length_cons]
    have hrowmem : (p ++ c :: s) ∈ rlines data := by
      rw [he]
      exact List.mem_append_right pre (List.mem_cons_self _ post)
    have hplen : p.length ≤ (p ++ c :: s).length := by
      simp only [List.length_append, List.length_cons]
      omega
    rw [he]
    rw [fillRows_err pre p c s post _ 0 hpre hp hc
      (show 0 + pre.length < (get_dimensions data).height from by rw [hH]; omega)
      (fun r hr =>
        show r.length ≤ (get_dimensions data).width from
          le_trans (length_le_utf8len r)
            (hW r (by rw [he]; exact List.mem_append_left _ hr)))
      (show p.length ≤ (get_dimensions data).width from
        le_trans (le_trans hplen (length_le_utf8len _)) (hW _ hrowmem))]
    exact fun hcon => RunResult.noConfusion hcon

/-- Witness for C10 at the concrete input `"P"`. -/
theorem convert_never_panics_witness :
    ((rlines ['P']).length < U32M ∧ (∀ l ∈ rlines ['P'], utf8len l < U32M)) ∧
      convert_to_image ['P'] ≠ .panicked :=
  ⟨⟨by decide, by decide⟩, convert_never_panics ['P'] (by decide) (by decide)⟩
